import Mathlib

/-!
# 1-WireRoutines (Atmel/main.c): bus-master driver and 7-segment encoder

Shallow embedding of the 1-Wire routines (`owReset`, `owWriteBit`, `owReadBit`,
`owWriteByte`, `owReadByte`, `bitReverse`), of the display encoder `intToBCD`
and of the sign-flag bookkeeping of the polling loop of `main`.

Machine integers are natural numbers with explicit truncation (`u8`, `u16`,
`u32`).  The I/O registers are fields of a record, the busy-wait `_delay_us`
adds to a microsecond clock, and the level seen on the input register `PINA`
is a function of that clock.
-/

namespace OneWire

/-! ## Machine integers -/

/-- Truncation to `uint8_t`. -/
def u8 (x : Nat) : Nat := x % 2 ^ 8

/-- Truncation to `uint16_t`. -/
def u16 (x : Nat) : Nat := x % 2 ^ 16

/-- Truncation to `uint32_t`. -/
def u32 (x : Nat) : Nat := x % 2 ^ 32

/-! ## The microcontroller state seen by the 1-Wire routines -/

/-- Port A output register, port A direction register, and the microseconds
spent so far in `_delay_us`. -/
structure Mcu where
  PORTA : Nat
  DDRA : Nat
  clock : Nat
deriving DecidableEq

/-- Bit number of the DQ pin in `PORTA`/`DDRA` (`PORTA3` of `avr/io.h`; the
header comment of main.c: "PA3 DQ (DS18B20)"). -/
def PORTA3 : Nat := 3

/-- Bit number of the DQ pin in `PINA` (`PINA3` of `avr/io.h`). -/
def PINA3 : Nat := 3

/-- Busy wait of `_delay_us(us)`. -/
def delay_us (us : Nat) (s : Mcu) : Mcu := { s with clock := s.clock + us }

/-- The statement `PORTA |= (1 << PORTA3)`. -/
def setPORTA3 (s : Mcu) : Mcu := { s with PORTA := u8 (s.PORTA ||| (1 <<< PORTA3)) }

/-- The statement `PORTA &= ~(1 << PORTA3)`. -/
def clrPORTA3 (s : Mcu) : Mcu := { s with PORTA := u8 (s.PORTA &&& (0xFF ^^^ (1 <<< PORTA3))) }

/-- The statement `DDRA |= (1 << PORTA3)`: DQ becomes an output. -/
def setDDRA3 (s : Mcu) : Mcu := { s with DDRA := u8 (s.DDRA ||| (1 <<< PORTA3)) }

/-- The statement `DDRA &= ~(1 << PORTA3)`: DQ becomes an input. -/
def clrDDRA3 (s : Mcu) : Mcu := { s with DDRA := u8 (s.DDRA &&& (0xFF ^^^ (1 <<< PORTA3))) }

/-! ## Bit primitives

`pina t` is the value read from the `PINA` register when the clock shows `t`. -/

/-- The function `owReset` (main.c 519-535). -/
def owReset (pina : Nat → Nat) (s : Mcu) : Nat × Mcu :=
  let s := setPORTA3 s
  let s := setDDRA3 s
  let s := clrPORTA3 s
  let s := delay_us 480 s
  let s := setPORTA3 s
  let s := clrDDRA3 s
  let s := delay_us 85 s
  let i := if pina s.clock &&& (1 <<< PINA3) = 0 then 1 else 0
  let s := delay_us 395 s
  (i, s)

/-- The function `owWriteBit` (main.c 543-561). -/
def owWriteBit (bit : Nat) (s : Mcu) : Mcu :=
  let s := setPORTA3 s
  let s := setDDRA3 s
  let s := clrPORTA3 s
  let s :=
    if bit ≠ 0 then
      let s := delay_us 14 s
      let s := setPORTA3 s
      let s := clrDDRA3 s
      delay_us 45 s
    else
      let s := delay_us 60 s
      let s := setPORTA3 s
      clrDDRA3 s
  delay_us 1 s

/-- The function `owReadBit` (main.c 569-585). -/
def owReadBit (pina : Nat → Nat) (s : Mcu) : Nat × Mcu :=
  let s := setPORTA3 s
  let s := setDDRA3 s
  let s := clrPORTA3 s
  let s := delay_us 1 s
  let s := setPORTA3 s
  let s := clrDDRA3 s
  let s := delay_us 13 s
  let bit := if pina s.clock &&& (1 <<< PINA3) ≠ 0 then 1 else 0
  let s := delay_us 47 s
  (bit, s)

/-! ## Byte operations

`owWriteByte` and `owReadByte` only use the bus through `owWriteBit` and
`owReadBit`; the embedding takes the bit primitive as the argument `writeBit`
or `readBit`, so that the same definition runs on the microcontroller state
and on a recorded or replayed bit sequence. -/

/-- The function `bitReverse` (main.c 612-620). -/
def bitReverse (x : Nat) : Nat :=
  let x := u8 (((x >>> 1) &&& 0x55) ||| ((x <<< 1) &&& 0xaa))
  let x := u8 (((x >>> 2) &&& 0x33) ||| ((x <<< 2) &&& 0xcc))
  let x := u8 (((x >>> 4) &&& 0x0f) ||| ((x <<< 4) &&& 0xf0))
  x

/-- The `for` loop of `owWriteByte` with `k` iterations left. -/
def owWriteByteLoop {σ : Type} (writeBit : Nat → σ → σ) : Nat → Nat → σ → σ
  | 0, _, s => s
  | k + 1, byte, s =>
    let s := writeBit (byte &&& 0x01) s
    let byte := u8 (byte >>> 1)
    owWriteByteLoop writeBit k byte s

/-- The function `owWriteByte` (main.c 587-596). -/
def owWriteByte {σ : Type} (writeBit : Nat → σ → σ) (byte : Nat) (s : σ) : σ :=
  owWriteByteLoop writeBit 8 byte s

/-- The `for` loop of `owReadByte` with `k` iterations left. -/
def owReadByteLoop {σ : Type} (readBit : σ → Nat × σ) : Nat → Nat → σ → Nat × σ
  | 0, n, s => (n, s)
  | k + 1, n, s =>
    let n := u8 (n <<< 1)
    let r := readBit s
    let n := u8 (n + r.1)
    owReadByteLoop readBit k n r.2

/-- The function `owReadByte` (main.c 598-610). -/
def owReadByte {σ : Type} (readBit : σ → Nat × σ) (s : σ) : Nat × σ :=
  let r := readBit s
  let n := u8 r.1
  let r := owReadByteLoop readBit 7 n r.2
  (bitReverse r.1, r.2)

/-- `owWriteByte` on the microcontroller. -/
def owWriteByteMcu (byte : Nat) (s : Mcu) : Mcu := owWriteByte owWriteBit byte s

/-- `owReadByte` on the microcontroller, with the line behaviour `pina`. -/
def owReadByteMcu (pina : Nat → Nat) (s : Mcu) : Nat × Mcu := owReadByte (owReadBit pina) s

/-! ## Recording and replaying bus traffic -/

/-- A bit-write primitive that appends its argument to a log. -/
def recordBit (bit : Nat) (log : List Nat) : List Nat := log ++ [bit]

/-- A bit-read primitive that returns the next value of a prepared sequence
(and `0` once the sequence is used up). -/
def replayBit : List Nat → Nat × List Nat
  | [] => (0, [])
  | r :: rs => (r, rs)

/-- The results of `k` successive calls of a read primitive, and the state
they leave. -/
def readSeq {σ : Type} (rd : σ → Nat × σ) : Nat → σ → List Nat × σ
  | 0, s => ([], s)
  | k + 1, s =>
    let r := rd s
    let rest := readSeq rd k r.2
    (r.1 :: rest.1, rest.2)

/-- The value of a bit sequence read least significant bit first: the sum of
`r_i * 2 ^ i` over the positions `i` of the sequence. -/
def lsbFirstValue (rs : List Nat) : Nat :=
  ((List.range rs.length).map (fun i => rs.getD i 0 * 2 ^ i)).sum

/-! ## The 7-segment encoder -/

/-- The table `number` (main.c 142-165): digits 0-9, digits 0-9 with decimal
point, minus sign, blank. -/
def number : List Nat :=
  [0x3F, 0x06, 0x5B, 0x4F, 0x66, 0x6D, 0x7D, 0x07, 0x7F, 0x6F,
   0xBF, 0x86, 0xDB, 0xCF, 0xE6, 0xED, 0xFD, 0x87, 0xFF, 0xEF,
   0x40, 0x00]

/-- The table access `number[index]`. -/
def numberAt (index : Nat) : Nat := number.getD index 0

/-- The memory reached through the pointer `charArray`: `mem i` is the byte at
`charArray + i`, and `writes` lists the offsets stored to, oldest first. The
caller's array has 8 elements, offsets 0 to 7. -/
structure Buf where
  mem : Nat → Nat
  writes : List Nat

/-- The assignment `charArray[i] = v`. -/
def Buf.store (b : Buf) (i v : Nat) : Buf :=
  { mem := fun j => if j = i then v else b.mem j, writes := b.writes ++ [i] }

/-- The 8 elements of the caller's array. -/
def Buf.contents (b : Buf) : List Nat := (List.range 8).map b.mem

/-- An array filled with the byte `0xAA` that has not been written to. -/
def Buf.fresh : Buf := { mem := fun _ => 0xAA, writes := [] }

/-- The loop `while (n) { bcd += ((uint32_t) (n % 10)) << shift; n /= 10; shift += 4; }`
of `intToBCD`. The first argument bounds the number of iterations; the loop
divides a non-zero `n` by 10 in each iteration, so `n` iterations are never
used up. -/
def bcdLoop : Nat → Nat → Nat → Nat → Nat
  | 0, _, bcd, _ => bcd
  | fuel + 1, n, bcd, shift =>
    if n ≠ 0 then
      let bcd := u32 (bcd + u32 ((n % 10) <<< shift))
      let n := n / 10
      let shift := u8 (shift + 4)
      bcdLoop fuel n bcd shift
    else bcd

/-- The loop that fills the array with the 7-segment codes, at index `i` with
`k` iterations left. -/
def fillLoop (precision : Nat) : Nat → Nat → Nat → Buf → Buf
  | 0, _, _, charArray => charArray
  | k + 1, i, bcd, charArray =>
    let index := u8 (bcd &&& 0x0F)
    let index := if precision ≠ 0 ∧ precision = i then u8 (index + 10) else index
    let charArray := charArray.store i (numberAt index)
    let bcd := bcd >>> 4
    fillLoop precision k (i + 1) bcd charArray

/-- The loop `for (i = 7; i > 0; i--)` that replaces leading zeros with
spaces, entered at index `i`; it returns `firstNonZeroDigit` (which is 0
unless the `break` is taken) and the array. -/
def blankLoop : Nat → Buf → Nat × Buf
  | 0, charArray => (0, charArray)
  | i + 1, charArray =>
    if charArray.mem (i + 1) = numberAt 0 then
      blankLoop i (charArray.store (i + 1) (numberAt 21))
    else (i + 1, charArray)

/-- The function `intToBCD` (main.c 481-517); `negative` and `precision` are
`uint8_t`, `n` is `uint16_t`. -/
def intToBCD (charArray : Buf) (negative precision n : Nat) : Buf :=
  let bcd := bcdLoop n n 0 0
  let charArray := fillLoop precision 8 0 bcd charArray
  let r := blankLoop 7 charArray
  let firstNonZeroDigit := r.1
  let charArray := r.2
  if negative ≠ 0 then charArray.store (firstNonZeroDigit + 1) (numberAt 20) else charArray

/-- Decimal digit `i` of `n`, digit 0 being the least significant. -/
def digit (n i : Nat) : Nat := (n / 10 ^ i) % 10

/-- The number `n` is written with `k` decimal digits (`0` with one digit). -/
def HasDigits (n k : Nat) : Prop := 1 ≤ k ∧ n < 10 ^ k ∧ (k = 1 ∨ 10 ^ (k - 1) ≤ n)

instance instDecidableHasDigits (n k : Nat) : Decidable (HasDigits n k) := by
  unfold HasDigits
  infer_instance

/-- The index into `number` that the fill loop uses at position `i` for the
decimal digit `d`: the variant with decimal point at the position `precision`. -/
def glyphIndex (precision i d : Nat) : Nat :=
  if precision ≠ 0 ∧ precision = i then d + 10 else d

/-- The value of `firstNonZeroDigit` after the blanking loop for a number of
`k` decimal digits: the position of the decimal point when that lies at or
above position `k` (and inside the array), else the top digit. -/
def firstNonZero (precision k : Nat) : Nat :=
  if 1 ≤ precision ∧ precision ≤ 7 ∧ k ≤ precision then precision else k - 1

/-! ## The Celsius path of one iteration of the polling loop of `main` -/

/-- Wrap-around of an integer into the range of `int16_t`. -/
def wrap16 (z : Int) : Int := (z + 2 ^ 15) % 2 ^ 16 - 2 ^ 15

/-- The reading `T` of main.c 219-221: `T = b1; T = T << 8; T += b0;`. -/
def readingT (b0 b1 : Nat) : Int :=
  let T : Int := wrap16 (u8 b1)
  let T := wrap16 (T * 2 ^ 8)
  let T := wrap16 (T + u8 b0)
  T

/-- The arguments of a call `intToBCD(charArray, negative, precision, n)`. -/
structure EncoderArgs where
  negative : Nat
  precision : Nat
  n : Nat
deriving DecidableEq

/-- One iteration of the polling loop as far as the Celsius value goes
(main.c 219-234), from the value of `negativeC` at the start of the iteration
and the two bytes returned by `owReadByte`; it returns the value of
`negativeC` at the end of the iteration and the arguments of the first
`intToBCD` call. The `float` products `T * 0.0625` and `10.0 * C` and the sum
`C + 0.5` are exact for a 16-bit `T`, so they are computed in the rationals. -/
def celsiusIteration (negativeC precision : Nat) (b0 b1 : Nat) : Nat × EncoderArgs :=
  let T := readingT b0 b1
  let C : Rat := (T : Rat) * (1 / 16)
  let C := 10 * C
  let r : Nat × Rat := if C < 0 then (1, -C) else (negativeC, C)
  let negativeC := r.1
  let C := r.2
  (negativeC, { negative := u8 negativeC, precision := u8 precision,
                n := u16 (Int.toNat (Int.floor (C + 1 / 2))) })

/-- The polling loop of `main` run over the byte pairs `(b0, b1)` read in
successive iterations: the arguments of the Celsius `intToBCD` call of each
iteration. `negativeC` is carried from one iteration to the next. -/
def celsiusLoop (negativeC precision : Nat) : List (Nat × Nat) → List EncoderArgs
  | [] => []
  | (b0, b1) :: rest =>
    let r := celsiusIteration negativeC precision b0 b1
    r.2 :: celsiusLoop r.1 precision rest

/-- The Celsius `intToBCD` calls of `main`, which starts with `negativeC = 0`
and `precision = 1` (main.c 202-203). -/
def mainCelsiusCalls (readings : List (Nat × Nat)) : List EncoderArgs :=
  celsiusLoop 0 1 readings

/-! ## Bus driver: helper lemmas -/

set_option maxRecDepth 100000 in
theorem bitReverse_bitReverse_all : ∀ x < 256, bitReverse (bitReverse x) = x := by decide

set_option maxRecDepth 100000 in
theorem recorded_bits_all :
    ∀ b < 256, owWriteByte recordBit b [] = (List.range 8).map (fun i => (b >>> i) &&& 1) := by
  decide

set_option maxRecDepth 100000 in
theorem loopback_all :
    ∀ b < 256, (owWriteByte recordBit b []).length = 8 ∧
      owReadByte replayBit (owWriteByte recordBit b []) = (b, []) := by
  decide

theorem owWriteByteLoop_record {σ : Type} (wb : Nat → σ → σ) (k : Nat) :
    ∀ (byte : Nat) (s : σ) (log : List Nat),
      owWriteByteLoop wb k byte (log.foldl (fun t bit => wb bit t) s) =
        (owWriteByteLoop recordBit k byte log).foldl (fun t bit => wb bit t) s := by
  induction k with
  | zero => intro byte s log; rfl
  | succ k ih =>
    intro byte s log
    simp only [owWriteByteLoop]
    rw [← ih]
    simp [recordBit, List.foldl_append]

theorem owWriteByte_record {σ : Type} (wb : Nat → σ → σ) (byte : Nat) (s : σ) :
    owWriteByte wb byte s = (owWriteByte recordBit byte []).foldl (fun t bit => wb bit t) s := by
  have h := owWriteByteLoop_record wb 8 byte s []
  simpa [owWriteByte] using h

theorem owReadByteLoop_readSeq {σ : Type} (rd : σ → Nat × σ) (k : Nat) :
    ∀ (n : Nat) (s : σ),
      owReadByteLoop rd k n s =
        ((owReadByteLoop replayBit k n (readSeq rd k s).1).1, (readSeq rd k s).2) := by
  induction k with
  | zero => intro n s; rfl
  | succ k ih =>
    intro n s
    simp only [owReadByteLoop, readSeq, replayBit]
    rw [ih]

theorem owReadByte_readSeq {σ : Type} (rd : σ → Nat × σ) (s : σ) :
    owReadByte rd s = ((owReadByte replayBit (readSeq rd 8 s).1).1, (readSeq rd 8 s).2) := by
  show (bitReverse (owReadByteLoop rd 7 (u8 (rd s).1) (rd s).2).1,
      (owReadByteLoop rd 7 (u8 (rd s).1) (rd s).2).2) = _
  rw [owReadByteLoop_readSeq rd 7]
  rfl

theorem readSeq_length {σ : Type} (rd : σ → Nat × σ) (k : Nat) :
    ∀ s : σ, (readSeq rd k s).1.length = k := by
  induction k with
  | zero => intro s; rfl
  | succ k ih => intro s; simp [readSeq, ih]

theorem replay_value_bits (r0 r1 r2 r3 r4 r5 r6 r7 : Nat)
    (h0 : r0 ≤ 1) (h1 : r1 ≤ 1) (h2 : r2 ≤ 1) (h3 : r3 ≤ 1)
    (h4 : r4 ≤ 1) (h5 : r5 ≤ 1) (h6 : r6 ≤ 1) (h7 : r7 ≤ 1) :
    (owReadByte replayBit [r0, r1, r2, r3, r4, r5, r6, r7]).1 =
      lsbFirstValue [r0, r1, r2, r3, r4, r5, r6, r7] := by
  have e0 : r0 = 0 ∨ r0 = 1 := by omega
  have e1 : r1 = 0 ∨ r1 = 1 := by omega
  have e2 : r2 = 0 ∨ r2 = 1 := by omega
  have e3 : r3 = 0 ∨ r3 = 1 := by omega
  have e4 : r4 = 0 ∨ r4 = 1 := by omega
  have e5 : r5 = 0 ∨ r5 = 1 := by omega
  have e6 : r6 = 0 ∨ r6 = 1 := by omega
  have e7 : r7 = 0 ∨ r7 = 1 := by omega
  rcases e0 with rfl | rfl <;> rcases e1 with rfl | rfl <;> rcases e2 with rfl | rfl <;>
  rcases e3 with rfl | rfl <;> rcases e4 with rfl | rfl <;> rcases e5 with rfl | rfl <;>
  rcases e6 with rfl | rfl <;> rcases e7 with rfl | rfl <;> rfl

theorem replay_value (rs : List Nat) (hlen : rs.length = 8) (hbit : ∀ r ∈ rs, r ≤ 1) :
    (owReadByte replayBit rs).1 = lsbFirstValue rs := by
  match rs, hlen with
  | [r0, r1, r2, r3, r4, r5, r6, r7], _ =>
    simp only [List.mem_cons, List.mem_singleton, forall_eq_or_imp, forall_eq,
      List.not_mem_nil, false_implies, implies_true, and_true] at hbit
    obtain ⟨h0, h1, h2, h3, h4, h5, h6, h7⟩ := hbit
    exact replay_value_bits r0 r1 r2 r3 r4 r5 r6 r7 h0 h1 h2 h3 h4 h5 h6 h7

theorem owReadBit_le_one (pina : Nat → Nat) (s : Mcu) : (owReadBit pina s).1 ≤ 1 := by
  show (if pina (s.clock + 1 + 13) &&& (1 <<< PINA3) ≠ 0 then 1 else 0) ≤ 1
  split <;> omega

theorem readSeq_le_one {σ : Type} (rd : σ → Nat × σ) (h : ∀ s, (rd s).1 ≤ 1) (k : Nat) :
    ∀ s : σ, ∀ r ∈ (readSeq rd k s).1, r ≤ 1 := by
  induction k with
  | zero => intro s r hr; simp [readSeq] at hr
  | succ k ih =>
    intro s r hr
    simp only [readSeq, List.mem_cons] at hr
    rcases hr with hr | hr
    · rw [hr]
      exact h s
    · exact ih _ r hr

/-- On the microcontroller, whatever the line does, `owReadByte` returns the
8 samples taken by `owReadBit`, the first one as bit 0. -/
theorem owReadByteMcu_value (pina : Nat → Nat) (s : Mcu) :
    owReadByteMcu pina s =
      (lsbFirstValue (readSeq (owReadBit pina) 8 s).1, (readSeq (owReadBit pina) 8 s).2) := by
  unfold owReadByteMcu
  rw [owReadByte_readSeq, replay_value _ (readSeq_length _ _ _)
    (readSeq_le_one _ (owReadBit_le_one pina) 8 s)]

/-- On the microcontroller, `owWriteByte` is the 8 calls of `owWriteBit` on
bits 0 to 7 of the byte. -/
theorem owWriteByteMcu_bits (b : Nat) (s : Mcu) (hb : b < 256) :
    owWriteByteMcu b s =
      ((List.range 8).map (fun i => (b >>> i) &&& 1)).foldl (fun t bit => owWriteBit bit t) s := by
  unfold owWriteByteMcu
  rw [owWriteByte_record, recorded_bits_all b hb]

theorem and_bit_eq_zero_iff (x i : Nat) : x &&& (1 <<< i) = 0 ↔ x.testBit i = false := by
  rw [Nat.shiftLeft_eq, Nat.one_mul]
  constructor
  · intro h
    have h2 : (x &&& 2 ^ i).testBit i = false := by rw [h]; simp
    simpa [Nat.testBit_and, Nat.testBit_two_pow_self] using h2
  · intro h
    apply Nat.eq_of_testBit_eq
    intro j
    rw [Nat.testBit_and, Nat.testBit_two_pow]
    by_cases hij : i = j
    · subst hij
      simp [h]
    · simp [hij]

/-! ## Encoder: helper lemmas -/

theorem low_nibble (bcd : Nat) : u8 (bcd &&& 0x0F) = bcd % 16 := by
  have h : bcd &&& 15 = bcd % 16 := by
    simpa using Nat.and_pow_two_sub_one_eq_mod bcd 4
  unfold u8
  rw [h]
  omega

theorem fill_index (precision i bcd : Nat) :
    (if precision ≠ 0 ∧ precision = i then u8 (u8 (bcd &&& 0x0F) + 10) else u8 (bcd &&& 0x0F)) =
      glyphIndex precision i (bcd % 16) := by
  rw [low_nibble]
  unfold glyphIndex u8
  split
  · omega
  · rfl

theorem fillLoop_mem (precision : Nat) (k : Nat) :
    ∀ (i bcd : Nat) (buf : Buf) (j : Nat),
      (fillLoop precision k i bcd buf).mem j =
        if i ≤ j ∧ j < i + k then numberAt (glyphIndex precision j (bcd / 16 ^ (j - i) % 16))
        else buf.mem j := by
  induction k with
  | zero =>
    intro i bcd buf j
    have c : ¬ (i ≤ j ∧ j < i + 0) := by omega
    rw [if_neg c]
    rfl
  | succ k ih =>
    intro i bcd buf j
    simp only [fillLoop]
    rw [ih, fill_index, Nat.shiftRight_eq_div_pow]
    by_cases h1 : i + 1 ≤ j
    · by_cases h2 : j < i + 1 + k
      · have e : j - i = (j - (i + 1)) + 1 := by omega
        have c1 : i + 1 ≤ j ∧ j < i + 1 + k := ⟨h1, h2⟩
        have c2 : i ≤ j ∧ j < i + (k + 1) := by omega
        have key : bcd / 2 ^ 4 / 16 ^ (j - (i + 1)) = bcd / 16 ^ (j - (i + 1) + 1) := by
          rw [Nat.div_div_eq_div_mul, pow_succ 16, Nat.mul_comm]
          norm_num
        rw [if_pos c1, if_pos c2, e, key]
      · have c1 : ¬ (i + 1 ≤ j ∧ j < i + 1 + k) := by omega
        have c2 : ¬ (i ≤ j ∧ j < i + (k + 1)) := by omega
        have c3 : j ≠ i := by omega
        rw [if_neg c1, if_neg c2]
        simp [Buf.store, c3]
    · have c1 : ¬ (i + 1 ≤ j ∧ j < i + 1 + k) := by omega
      rw [if_neg c1]
      by_cases h3 : j = i
      · subst h3
        have c2 : j ≤ j ∧ j < j + (k + 1) := by omega
        rw [if_pos c2]
        simp [Buf.store]
      · have c2 : ¬ (i ≤ j ∧ j < i + (k + 1)) := by omega
        rw [if_neg c2]
        simp [Buf.store, h3]

theorem fillLoop_writes (precision : Nat) (k : Nat) :
    ∀ (i bcd : Nat) (buf : Buf),
      (fillLoop precision k i bcd buf).writes = buf.writes ++ List.range' i k := by
  induction k with
  | zero => intro i bcd buf; simp [fillLoop]
  | succ k ih =>
    intro i bcd buf
    simp only [fillLoop]
    rw [ih]
    simp [Buf.store, List.range'_succ]

theorem digit_zero_of_lt (n i : Nat) (h : n < 10 ^ i) : digit n i = 0 := by
  unfold digit
  rw [Nat.div_eq_of_lt h]

theorem digit_succ (n i : Nat) : digit (n / 10) i = digit n (i + 1) := by
  unfold digit
  rw [Nat.div_div_eq_div_mul, pow_succ, Nat.mul_comm]

theorem digit_lt (n i : Nat) : digit n i < 10 := by
  unfold digit
  exact Nat.mod_lt _ (by norm_num)

theorem nibble_add_low (bcd d i j : Nat) (hij : i < j) :
    (bcd + d * 16 ^ j) / 16 ^ i % 16 = bcd / 16 ^ i % 16 := by
  have e : j = i + (j - i - 1) + 1 := by omega
  have h16 : 0 < 16 ^ i := pow_pos (by norm_num) _
  have e2 : d * 16 ^ j = 16 ^ i * (16 * (d * 16 ^ (j - i - 1))) := by
    rw [e, pow_succ, pow_add]
    have : i + (j - i - 1) + 1 - i - 1 = j - i - 1 := by omega
    rw [this]
    ring
  rw [e2, Nat.add_mul_div_left _ _ h16, Nat.add_mul_mod_self_left]

theorem nibble_add_top (bcd d j : Nat) (hb : bcd < 16 ^ j) (hd : d < 16) :
    (bcd + d * 16 ^ j) / 16 ^ j % 16 = d := by
  have h16 : 0 < 16 ^ j := pow_pos (by norm_num) _
  rw [Nat.add_mul_div_right _ _ h16, Nat.div_eq_of_lt hb, Nat.zero_add, Nat.mod_eq_of_lt hd]

theorem bcdLoop_nibble (fuel : Nat) :
    ∀ (n bcd j : Nat), n ≤ fuel → bcd < 16 ^ j → n < 10 ^ (8 - j) → j ≤ 8 →
      ∀ i, bcdLoop fuel n bcd (4 * j) / 16 ^ i % 16 =
        if i < j then bcd / 16 ^ i % 16 else digit n (i - j) := by
  have base : ∀ (bcd j : Nat), bcd < 16 ^ j →
      ∀ i, bcd / 16 ^ i % 16 = if i < j then bcd / 16 ^ i % 16 else digit 0 (i - j) := by
    intro bcd j hb i
    split
    · rfl
    · rename_i h
      have : bcd < 16 ^ i :=
        lt_of_lt_of_le hb (Nat.pow_le_pow_right (by norm_num) (by omega))
      rw [Nat.div_eq_of_lt this]
      simp [digit]
  induction fuel with
  | zero =>
    intro n bcd j hn hb _ _ i
    have hn0 : n = 0 := by omega
    subst hn0
    simpa [bcdLoop] using base bcd j hb i
  | succ fuel ih =>
    intro n bcd j hn hb hlt hj i
    by_cases hn0 : n = 0
    · subst hn0
      simpa [bcdLoop] using base bcd j hb i
    · have hj8 : j < 8 := by
        by_contra hc
        have : 8 - j = 0 := by omega
        rw [this] at hlt
        omega
      have hd : n % 10 < 16 := by omega
      have hpow : (16 : Nat) ^ (j + 1) ≤ 16 ^ 8 := Nat.pow_le_pow_right (by norm_num) (by omega)
      have hnew : bcd + n % 10 * 16 ^ j < 16 ^ (j + 1) := by
        rw [pow_succ]
        nlinarith
      have hshl : (n % 10) <<< (4 * j) = n % 10 * 16 ^ j := by
        rw [Nat.shiftLeft_eq, pow_mul]
        norm_num
      have hsmall : n % 10 * 16 ^ j < 2 ^ 32 := by
        have : (2 : Nat) ^ 32 = 16 ^ 8 := by norm_num
        omega
      have hbcd : u32 (bcd + u32 ((n % 10) <<< (4 * j))) = bcd + n % 10 * 16 ^ j := by
        have : (2 : Nat) ^ 32 = 16 ^ 8 := by norm_num
        unfold u32
        rw [hshl, Nat.mod_eq_of_lt hsmall, Nat.mod_eq_of_lt (by omega)]
      have hshift : u8 (4 * j + 4) = 4 * (j + 1) := by
        unfold u8
        omega
      have hlt2 : n / 10 < 10 ^ (8 - (j + 1)) := by
        have e : 8 - j = (8 - (j + 1)) + 1 := by omega
        rw [e, pow_succ] at hlt
        omega
      have step : bcdLoop (fuel + 1) n bcd (4 * j) =
          bcdLoop fuel (n / 10) (bcd + n % 10 * 16 ^ j) (4 * (j + 1)) := by
        simp only [bcdLoop, if_pos hn0, ne_eq, not_false_eq_true, hbcd, hshift]
      rw [step, ih (n / 10) _ (j + 1) (by omega) hnew hlt2 (by omega) i]
      by_cases h1 : i < j
      · have c : i < j + 1 := by omega
        rw [if_pos c, if_pos h1, nibble_add_low _ _ _ _ h1]
      · by_cases h2 : i = j
        · subst h2
          have c : i < i + 1 := by omega
          rw [if_pos c, if_neg h1, nibble_add_top _ _ _ hb hd]
          simp [digit]
        · have c : ¬ i < j + 1 := by omega
          have e : i - j = (i - (j + 1)) + 1 := by omega
          rw [if_neg c, if_neg h1, e, digit_succ]

theorem bcdLoop_succ_fuel (fuel : Nat) :
    ∀ (n bcd shift : Nat), n ≤ fuel →
      bcdLoop (fuel + 1) n bcd shift = bcdLoop fuel n bcd shift := by
  induction fuel with
  | zero =>
    intro n bcd shift hn
    have hn0 : n = 0 := by omega
    subst hn0
    rfl
  | succ fuel ih =>
    intro n bcd shift hn
    by_cases hn0 : n = 0
    · subst hn0
      rfl
    · have h : n / 10 ≤ fuel := by omega
      have e1 : bcdLoop (fuel + 1 + 1) n bcd shift =
          bcdLoop (fuel + 1) (n / 10) (u32 (bcd + u32 ((n % 10) <<< shift))) (u8 (shift + 4)) := by
        simp only [bcdLoop, if_pos hn0, ne_eq, not_false_eq_true]
      have e2 : bcdLoop (fuel + 1) n bcd shift =
          bcdLoop fuel (n / 10) (u32 (bcd + u32 ((n % 10) <<< shift))) (u8 (shift + 4)) := by
        simp only [bcdLoop, if_pos hn0, ne_eq, not_false_eq_true]
      rw [e1, e2]
      exact ih _ _ _ h

/-- The iteration bound of `bcdLoop` is never reached: every bound of at least
`n` gives the result of the bound `n` that `intToBCD` uses. -/
theorem bcdLoop_fuel (fuel n bcd shift : Nat) (h : n ≤ fuel) :
    bcdLoop fuel n bcd shift = bcdLoop n n bcd shift := by
  induction fuel, h using Nat.le_induction with
  | base => rfl
  | succ m hm ih => rw [bcdLoop_succ_fuel m n bcd shift hm, ih]

theorem blankLoop_spec (i : Nat) :
    ∀ (b : Buf) (m : Nat), m ≤ i → (∀ j, m < j → j ≤ i → b.mem j = numberAt 0) →
      (m = 0 ∨ b.mem m ≠ numberAt 0) →
      (blankLoop i b).1 = m ∧
      (∀ j, (blankLoop i b).2.mem j = if m < j ∧ j ≤ i then numberAt 21 else b.mem j) ∧
      (blankLoop i b).2.writes = b.writes ++ (List.range' (m + 1) (i - m)).reverse := by
  induction i with
  | zero =>
    intro b m hm _ _
    have hm0 : m = 0 := by omega
    subst hm0
    refine ⟨rfl, ?_, ?_⟩
    · intro j
      have c : ¬ (0 < j ∧ j ≤ 0) := by omega
      rw [if_neg c]
      rfl
    · simp [blankLoop]
  | succ i ih =>
    intro b m hm hz hnz
    by_cases hmi : m = i + 1
    · subst hmi
      have hne : b.mem (i + 1) ≠ numberAt 0 := by
        rcases hnz with h | h
        · omega
        · exact h
      have e : blankLoop (i + 1) b = (i + 1, b) := by
        simp only [blankLoop, if_neg hne]
      rw [e]
      refine ⟨rfl, ?_, ?_⟩
      · intro j
        have c : ¬ (i + 1 < j ∧ j ≤ i + 1) := by omega
        rw [if_neg c]
      · simp
    · have hmle : m ≤ i := by omega
      have heq : b.mem (i + 1) = numberAt 0 := hz (i + 1) (by omega) (by omega)
      have e : blankLoop (i + 1) b = blankLoop i (b.store (i + 1) (numberAt 21)) := by
        simp only [blankLoop, if_pos heq]
      have hz2 : ∀ j, m < j → j ≤ i → (b.store (i + 1) (numberAt 21)).mem j = numberAt 0 := by
        intro j h1 h2
        have : j ≠ i + 1 := by omega
        simp only [Buf.store, if_neg this]
        exact hz j h1 (by omega)
      have hnz2 : m = 0 ∨ (b.store (i + 1) (numberAt 21)).mem m ≠ numberAt 0 := by
        have : m ≠ i + 1 := hmi
        simp only [Buf.store, if_neg this]
        exact hnz
      obtain ⟨r1, r2, r3⟩ := ih (b.store (i + 1) (numberAt 21)) m hmle hz2 hnz2
      rw [e]
      refine ⟨r1, ?_, ?_⟩
      · intro j
        rw [r2 j]
        by_cases h1 : m < j ∧ j ≤ i
        · have c : m < j ∧ j ≤ i + 1 := by omega
          rw [if_pos h1, if_pos c]
        · rw [if_neg h1]
          by_cases h2 : j = i + 1
          · have c : m < j ∧ j ≤ i + 1 := by omega
            rw [if_pos c]
            simp [Buf.store, h2]
          · have c : ¬ (m < j ∧ j ≤ i + 1) := by omega
            rw [if_neg c]
            simp [Buf.store, h2]
      · rw [r3]
        have e2 : i + 1 - m = (i - m) + 1 := by omega
        have e3 : m + 1 + (i - m) = i + 1 := by omega
        rw [e2, List.range'_1_concat, List.reverse_append, e3]
        simp [Buf.store]

theorem numberAt_ne_zero : ∀ x < 20, x ≠ 0 → numberAt x ≠ numberAt 0 := by decide

theorem hasDigits_top (n k : Nat) (hk : HasDigits n k) (hk1 : k ≠ 1) : digit n (k - 1) ≠ 0 := by
  obtain ⟨h1, h2, h3⟩ := hk
  have h4 : 10 ^ (k - 1) ≤ n := by
    rcases h3 with h | h
    · exact absurd h hk1
    · exact h
  have hpos : 0 < 10 ^ (k - 1) := pow_pos (by norm_num) _
  have e : k = (k - 1) + 1 := by omega
  rw [e, pow_succ] at h2
  have hq1 : 1 ≤ n / 10 ^ (k - 1) := (Nat.one_le_div_iff hpos).mpr h4
  have hq2 : n / 10 ^ (k - 1) < 10 := (Nat.div_lt_iff_lt_mul hpos).mpr (by linarith)
  unfold digit
  omega

theorem intToBCD_spec (buf : Buf) (negative precision n k : Nat)
    (hk : HasDigits n k) (hk8 : k ≤ 8) :
    (∀ j, (intToBCD buf negative precision n).mem j =
      if negative ≠ 0 ∧ j = firstNonZero precision k + 1 then numberAt 20
      else if j ≤ firstNonZero precision k then numberAt (glyphIndex precision j (digit n j))
      else if j < 8 then numberAt 21
      else buf.mem j) ∧
    (intToBCD buf negative precision n).writes =
      buf.writes ++ (List.range' 0 8 ++
        (List.range' (firstNonZero precision k + 1) (7 - firstNonZero precision k)).reverse ++
        if negative ≠ 0 then [firstNonZero precision k + 1] else []) := by
  obtain ⟨hk1, hlt, hlow⟩ := hk
  have hn8 : n < 10 ^ (8 - 0) :=
    lt_of_lt_of_le hlt (Nat.pow_le_pow_right (by norm_num) (by omega))
  have hnib : ∀ i, bcdLoop n n 0 0 / 16 ^ i % 16 = digit n i := by
    intro i
    have h := bcdLoop_nibble n n 0 0 (le_refl n) (by norm_num) hn8 (by omega) i
    simpa using h
  have hB : ∀ j, (fillLoop precision 8 0 (bcdLoop n n 0 0) buf).mem j =
      if j < 8 then numberAt (glyphIndex precision j (digit n j)) else buf.mem j := by
    intro j
    rw [fillLoop_mem]
    by_cases h : j < 8
    · have c : 0 ≤ j ∧ j < 0 + 8 := by omega
      rw [if_pos c, if_pos h, Nat.sub_zero, hnib]
    · have c : ¬ (0 ≤ j ∧ j < 0 + 8) := by omega
      rw [if_neg c, if_neg h]
  have hBw : (fillLoop precision 8 0 (bcdLoop n n 0 0) buf).writes =
      buf.writes ++ List.range' 0 8 := fillLoop_writes precision 8 0 _ buf
  have hm7 : firstNonZero precision k ≤ 7 := by
    unfold firstNonZero
    split <;> omega
  have hz : ∀ j, firstNonZero precision k < j → j ≤ 7 →
      (fillLoop precision 8 0 (bcdLoop n n 0 0) buf).mem j = numberAt 0 := by
    intro j h1 h2
    have hj8 : j < 8 := by omega
    have hkj : k ≤ j := by
      unfold firstNonZero at h1
      split at h1 <;> omega
    have hd : digit n j = 0 :=
      digit_zero_of_lt n j (lt_of_lt_of_le hlt (Nat.pow_le_pow_right (by norm_num) hkj))
    have hp : ¬ (precision ≠ 0 ∧ precision = j) := by
      rintro ⟨hp0, hpj⟩
      unfold firstNonZero at h1
      split at h1 <;> omega
    rw [hB j, if_pos hj8, hd]
    unfold glyphIndex
    rw [if_neg hp]
  have hnz : firstNonZero precision k = 0 ∨
      (fillLoop precision 8 0 (bcdLoop n n 0 0) buf).mem (firstNonZero precision k) ≠
        numberAt 0 := by
    by_cases h0 : firstNonZero precision k = 0
    · exact Or.inl h0
    · right
      rw [hB, if_pos (by omega)]
      apply numberAt_ne_zero
      · have := digit_lt n (firstNonZero precision k)
        unfold glyphIndex
        split <;> omega
      · unfold firstNonZero at h0 ⊢
        split
        · rename_i hc
          unfold glyphIndex
          rw [if_pos ⟨by omega, rfl⟩]
          omega
        · rename_i hc
          rw [if_neg hc] at h0
          have hk1' : k ≠ 1 := by omega
          have := hasDigits_top n k ⟨hk1, hlt, hlow⟩ hk1'
          unfold glyphIndex
          split <;> omega
  obtain ⟨r1, r2, r3⟩ := blankLoop_spec 7 _ (firstNonZero precision k) hm7 hz hnz
  constructor
  · intro j
    by_cases hneg : negative ≠ 0
    · have e : (intToBCD buf negative precision n).mem j =
          ((blankLoop 7 (fillLoop precision 8 0 (bcdLoop n n 0 0) buf)).2.store
            ((blankLoop 7 (fillLoop precision 8 0 (bcdLoop n n 0 0) buf)).1 + 1)
            (numberAt 20)).mem j := by
        simp only [intToBCD, if_pos hneg]
      rw [e, r1]
      by_cases hj : j = firstNonZero precision k + 1
      · rw [if_pos ⟨hneg, hj⟩]
        simp [Buf.store, hj]
      · have c : ¬ (negative ≠ 0 ∧ j = firstNonZero precision k + 1) := fun h => hj h.2
        rw [if_neg c]
        simp only [Buf.store, if_neg hj]
        rw [r2 j, hB j]
        by_cases h1 : j ≤ firstNonZero precision k
        · have c1 : ¬ (firstNonZero precision k < j ∧ j ≤ 7) := by omega
          have c2 : j < 8 := by omega
          rw [if_neg c1, if_pos c2, if_pos h1]
        · by_cases h2 : j < 8
          · have c1 : firstNonZero precision k < j ∧ j ≤ 7 := by omega
            rw [if_pos c1, if_neg h1, if_pos h2]
          · have c1 : ¬ (firstNonZero precision k < j ∧ j ≤ 7) := by omega
            rw [if_neg c1, if_neg h2, if_neg h1, if_neg h2]
    · have e : (intToBCD buf negative precision n).mem j =
          (blankLoop 7 (fillLoop precision 8 0 (bcdLoop n n 0 0) buf)).2.mem j := by
        simp only [intToBCD, if_neg hneg]
      have c : ¬ (negative ≠ 0 ∧ j = firstNonZero precision k + 1) := fun h => hneg h.1
      rw [e, if_neg c, r2 j, hB j]
      by_cases h1 : j ≤ firstNonZero precision k
      · have c1 : ¬ (firstNonZero precision k < j ∧ j ≤ 7) := by omega
        have c2 : j < 8 := by omega
        rw [if_neg c1, if_pos c2, if_pos h1]
      · by_cases h2 : j < 8
        · have c1 : firstNonZero precision k < j ∧ j ≤ 7 := by omega
          rw [if_pos c1, if_neg h1, if_pos h2]
        · have c1 : ¬ (firstNonZero precision k < j ∧ j ≤ 7) := by omega
          rw [if_neg c1, if_neg h2, if_neg h1, if_neg h2]
  · by_cases hneg : negative ≠ 0
    · have e : (intToBCD buf negative precision n).writes =
          ((blankLoop 7 (fillLoop precision 8 0 (bcdLoop n n 0 0) buf)).2.store
            ((blankLoop 7 (fillLoop precision 8 0 (bcdLoop n n 0 0) buf)).1 + 1)
            (numberAt 20)).writes := by
        simp only [intToBCD, if_pos hneg]
      rw [e, r1, if_pos hneg]
      simp only [Buf.store]
      rw [r3, hBw]
      simp
    · have e : (intToBCD buf negative precision n).writes =
          (blankLoop 7 (fillLoop precision 8 0 (bcdLoop n n 0 0) buf)).2.writes := by
        simp only [intToBCD, if_neg hneg]
      rw [e, if_neg hneg, r3, hBw]
      simp

theorem hasDigits_u16 (n k : Nat) (hn : n < 2 ^ 16) (hk : HasDigits n k) : k ≤ 5 := by
  obtain ⟨_, _, h3⟩ := hk
  rcases h3 with h | h
  · omega
  · by_contra hc
    have h5 : (10 : Nat) ^ 5 ≤ 10 ^ (k - 1) := Nat.pow_le_pow_right (by norm_num) (by omega)
    norm_num at h5 hn
    omega

/-! ## Bus driver: the claims -/

/-- Claim C1 (loopback round trip): for every byte `b`, recording the bits that
`owWriteByte b` hands to the bit-write primitive gives 8 bits, and `owReadByte`
run on a bit-read primitive that returns exactly those bits in the same order
returns `b` and uses up all 8 of them. -/
theorem owReadByte_owWriteByte_loopback (b : Nat) (hb : b < 256) :
    (owWriteByte recordBit b []).length = 8 ∧
    owReadByte replayBit (owWriteByte recordBit b []) = (b, []) :=
  loopback_all b hb

theorem owReadByte_owWriteByte_loopback_witness :
    0xBE < 256 ∧ (owWriteByte recordBit 0xBE []).length = 8 ∧
    owReadByte replayBit (owWriteByte recordBit 0xBE []) = (0xBE, []) :=
  ⟨by decide, owReadByte_owWriteByte_loopback 0xBE (by decide)⟩

/-- Claim C3 (`owReadByte` is least-significant-bit first): whatever the bit-read
primitive and the state, if the 8 results `r_0 .. r_7` of its successive calls
are each 0 or 1, then `owReadByte` returns the sum of `r_i * 2 ^ i` and leaves
the state reached after exactly those 8 calls. -/
theorem owReadByte_lsb_first {σ : Type} (readBit : σ → Nat × σ) (s : σ)
    (hbit : ∀ r ∈ (readSeq readBit 8 s).1, r ≤ 1) :
    (readSeq readBit 8 s).1.length = 8 ∧
    owReadByte readBit s =
      (lsbFirstValue (readSeq readBit 8 s).1, (readSeq readBit 8 s).2) := by
  refine ⟨readSeq_length _ _ _, ?_⟩
  rw [owReadByte_readSeq, replay_value _ (readSeq_length _ _ _) hbit]

theorem owReadByte_lsb_first_witness :
    (∀ r ∈ (readSeq replayBit 8 [1, 0, 1, 1, 0, 0, 1, 0, 1, 1]).1, r ≤ 1) ∧
    owReadByte replayBit [1, 0, 1, 1, 0, 0, 1, 0, 1, 1] = (1 + 4 + 8 + 64, [1, 1]) :=
  ⟨by decide,
    (owReadByte_lsb_first replayBit [1, 0, 1, 1, 0, 0, 1, 0, 1, 1] (by decide)).2.trans
      (by decide)⟩

/-- Claim C4 (`owWriteByte` is least-significant-bit first): for every byte `b`,
whatever the bit-write primitive and the state, `owWriteByte b` is the
sequence of exactly 8 calls of the primitive whose `i`-th argument
(`i = 0 .. 7`) is `(b >> i) & 1`. -/
theorem owWriteByte_lsb_first {σ : Type} (writeBit : Nat → σ → σ) (b : Nat) (s : σ)
    (hb : b < 256) :
    owWriteByte writeBit b s =
      ((List.range 8).map (fun i => (b >>> i) &&& 1)).foldl (fun t bit => writeBit bit t) s := by
  rw [owWriteByte_record, recorded_bits_all b hb]

theorem owWriteByte_lsb_first_witness :
    0xCC < 256 ∧ owWriteByte recordBit 0xCC [] = [0, 0, 1, 1, 0, 0, 1, 1] :=
  ⟨by decide, (owWriteByte_lsb_first recordBit 0xCC [] (by decide)).trans (by decide)⟩

/-- Claim C5 (`owReset` reports the inverse of the sampled line level): for every
behaviour `pina` of the input register and every state, the result is 1 when
bit `PINA3` read at the sample time (480 us of low pulse plus 85 us after the
release) is clear and 0 when it is set; it is never another value; it depends
on the line at that one time only; and the whole cycle takes 960 us. -/
theorem owReset_presence (pina : Nat → Nat) (s : Mcu) :
    (owReset pina s).1 = (if (pina (s.clock + 480 + 85)).testBit PINA3 then 0 else 1) ∧
    ((owReset pina s).1 = 0 ∨ (owReset pina s).1 = 1) ∧
    (∀ pina2 : Nat → Nat, pina2 (s.clock + 480 + 85) = pina (s.clock + 480 + 85) →
      (owReset pina2 s).1 = (owReset pina s).1) ∧
    (owReset pina s).2.clock = s.clock + 480 + 85 + 395 := by
  have key : ∀ q : Nat → Nat,
      (owReset q s).1 = (if (q (s.clock + 480 + 85)).testBit PINA3 then 0 else 1) := by
    intro q
    show (if q (s.clock + 480 + 85) &&& (1 <<< PINA3) = 0 then 1 else 0) = _
    by_cases h : (q (s.clock + 480 + 85)).testBit PINA3 = true
    · have h2 : ¬ (q (s.clock + 480 + 85) &&& (1 <<< PINA3) = 0) := by
        rw [and_bit_eq_zero_iff]
        simp [h]
      rw [if_neg h2, if_pos h]
    · have h2 : q (s.clock + 480 + 85) &&& (1 <<< PINA3) = 0 := by
        rw [and_bit_eq_zero_iff]
        simpa using h
      rw [if_pos h2, if_neg h]
  refine ⟨key pina, ?_, ?_, rfl⟩
  · rw [key pina]
    split
    · exact Or.inl rfl
    · exact Or.inr rfl
  · intro pina2 h
    rw [key pina, key pina2, h]

theorem owReset_presence_witness :
    (owReset (fun t => if 500 ≤ t ∧ t < 700 then 0x00 else 0x08) ⟨0, 0, 0⟩).1 = 1 ∧
    (owReset (fun _ => 0x08) ⟨0, 0, 0⟩).1 = 0 :=
  ⟨(owReset_presence (fun t => if 500 ≤ t ∧ t < 700 then 0x00 else 0x08) ⟨0, 0, 0⟩).1,
    (owReset_presence (fun _ => 0x08) ⟨0, 0, 0⟩).1⟩

/-- Claim C7 fails on the code: from the same state, `owWriteBit 1` waits
14 + 45 + 1 = 60 us in all, while `owWriteBit 0` waits 60 + 1 = 61 us and the
read slot of `owReadBit` 1 + 13 + 47 = 61 us. The write-1 branch waits only
59 us before the 1 us recovery, under the source comment
"Time slots must be >= 60us". -/
theorem owWriteBit_slot_depends_on_bit :
    (owWriteBit 1 ⟨0, 0, 0⟩).clock = 60 ∧ (owWriteBit 0 ⟨0, 0, 0⟩).clock = 61 ∧
    (owReadBit (fun _ => 0) ⟨0, 0, 0⟩).2.clock = 61 ∧
    (owWriteBit 0 ⟨0, 0, 0⟩).clock ≠ (owWriteBit 1 ⟨0, 0, 0⟩).clock := by
  decide

/-- The total busy-wait time of `owWriteBit` from any state: 61 us for
`bit = 0` and 60 us for every non-zero `bit`. -/
theorem owWriteBit_slot_length (bit : Nat) (s : Mcu) :
    (owWriteBit bit s).clock = s.clock + (if bit = 0 then 61 else 60) := by
  by_cases h : bit = 0
  · subst h
    rfl
  · rw [if_neg h]
    simp only [owWriteBit, if_pos h, ne_eq, not_false_eq_true]
    simp [delay_us, setPORTA3, clrPORTA3, setDDRA3, clrDDRA3]

/-- Claim C8 (`bitReverse` is an involution on 8-bit values). -/
theorem bitReverse_involution (x : Nat) (hx : x < 256) : bitReverse (bitReverse x) = x :=
  bitReverse_bitReverse_all x hx

theorem bitReverse_involution_witness :
    0x4B < 256 ∧ bitReverse 0x4B = 0xD2 ∧ bitReverse (bitReverse 0x4B) = 0x4B :=
  ⟨by decide, by decide, bitReverse_involution 0x4B (by decide)⟩

/-! ## Encoder: the claims -/

/-- Claim C2 (`intToBCD` with the decimal point inside the number): for a 16-bit
`n` of `k` decimal digits, any sign flag, and `precision = 0` or
`1 ≤ precision < k`: position `i < k` holds the glyph of digit `i` of `n`, with
decimal point at `i = precision ≥ 1`; position `k` holds the minus sign when
the sign flag is non-zero and a blank otherwise; positions `k < i ≤ 7` hold
blanks. -/
theorem intToBCD_point_inside (charArray : Buf) (negative precision n k : Nat)
    (hn : n < 2 ^ 16) (hk : HasDigits n k)
    (hp : precision = 0 ∨ (1 ≤ precision ∧ precision < k)) :
    (∀ i, i < k → (intToBCD charArray negative precision n).mem i =
      numberAt (if 1 ≤ precision ∧ i = precision then digit n i + 10 else digit n i)) ∧
    (intToBCD charArray negative precision n).mem k =
      numberAt (if negative ≠ 0 then 20 else 21) ∧
    (∀ i, k < i → i ≤ 7 → (intToBCD charArray negative precision n).mem i = numberAt 21) := by
  have hk5 := hasDigits_u16 n k hn hk
  have hk1 : 1 ≤ k := hk.1
  obtain ⟨hmem, _⟩ := intToBCD_spec charArray negative precision n k hk (by omega)
  have hm : firstNonZero precision k = k - 1 := by
    unfold firstNonZero
    rw [if_neg (by omega)]
  rw [hm] at hmem
  refine ⟨?_, ?_, ?_⟩
  · intro i hi
    have c1 : ¬ (negative ≠ 0 ∧ i = k - 1 + 1) := by omega
    have c2 : i ≤ k - 1 := by omega
    rw [hmem i, if_neg c1, if_pos c2]
    unfold glyphIndex
    by_cases h : 1 ≤ precision ∧ i = precision
    · have c3 : precision ≠ 0 ∧ precision = i := by omega
      rw [if_pos h, if_pos c3]
    · have c3 : ¬ (precision ≠ 0 ∧ precision = i) := by omega
      rw [if_neg h, if_neg c3]
  · rw [hmem k]
    by_cases h : negative ≠ 0
    · have c1 : negative ≠ 0 ∧ k = k - 1 + 1 := ⟨h, by omega⟩
      rw [if_pos c1, if_pos h]
    · have c1 : ¬ (negative ≠ 0 ∧ k = k - 1 + 1) := fun c => h c.1
      have c2 : ¬ k ≤ k - 1 := by omega
      have c3 : k < 8 := by omega
      rw [if_neg c1, if_neg c2, if_pos c3, if_neg h]
  · intro i h1 h2
    have c1 : ¬ (negative ≠ 0 ∧ i = k - 1 + 1) := by omega
    have c2 : ¬ i ≤ k - 1 := by omega
    have c3 : i < 8 := by omega
    rw [hmem i, if_neg c1, if_neg c2, if_pos c3]

theorem intToBCD_point_inside_witness :
    (205 < 2 ^ 16 ∧ HasDigits 205 3 ∧ (1 = 0 ∨ (1 ≤ 1 ∧ 1 < 3))) ∧
    ((intToBCD Buf.fresh 1 1 205).mem 0 = 0x6D ∧ (intToBCD Buf.fresh 1 1 205).mem 1 = 0xBF ∧
      (intToBCD Buf.fresh 1 1 205).mem 2 = 0x5B ∧ (intToBCD Buf.fresh 1 1 205).mem 3 = 0x40 ∧
      (intToBCD Buf.fresh 1 1 205).mem 4 = 0x00 ∧ (intToBCD Buf.fresh 1 1 205).mem 7 = 0x00) ∧
    (intToBCD Buf.fresh 0 0 0).contents = [0x3F, 0, 0, 0, 0, 0, 0, 0] ∧
    (intToBCD Buf.fresh 1 1 205).contents = [0x6D, 0xBF, 0x5B, 0x40, 0, 0, 0, 0] ∧
    (intToBCD Buf.fresh 0 0 9999).contents = [0x6F, 0x6F, 0x6F, 0x6F, 0, 0, 0, 0] :=
  have h := intToBCD_point_inside Buf.fresh 1 1 205 3 (by decide) (by decide) (by decide)
  ⟨⟨by decide, by decide, by decide⟩,
    ⟨h.1 0 (by decide), h.1 1 (by decide), h.1 2 (by decide), h.2.1,
      h.2.2 4 (by decide) (by decide), h.2.2 7 (by decide) (by decide)⟩,
    by decide, by decide, by decide⟩

/-- Claim C9 (a zero that carries the decimal point stops the blanking): for a
16-bit `n` of `k` decimal digits, `k ≤ precision ≤ 7` and a clear sign flag:
position `i < k` holds the plain glyph of digit `i`, positions
`k ≤ i < precision` hold a plain zero, position `precision` holds the zero with
decimal point, and positions `precision < i ≤ 7` hold blanks. -/
theorem intToBCD_point_above (charArray : Buf) (precision n k : Nat)
    (hn : n < 2 ^ 16) (hk : HasDigits n k) (hp : k ≤ precision ∧ precision ≤ 7) :
    (∀ i, i < k → (intToBCD charArray 0 precision n).mem i = numberAt (digit n i)) ∧
    (∀ i, k ≤ i → i < precision → (intToBCD charArray 0 precision n).mem i = numberAt 0) ∧
    (intToBCD charArray 0 precision n).mem precision = numberAt 10 ∧
    (∀ i, precision < i → i ≤ 7 → (intToBCD charArray 0 precision n).mem i = numberAt 21) := by
  have hk5 := hasDigits_u16 n k hn hk
  have hk1 : 1 ≤ k := hk.1
  have hlt : n < 10 ^ k := hk.2.1
  obtain ⟨hmem, _⟩ := intToBCD_spec charArray 0 precision n k hk (by omega)
  have hm : firstNonZero precision k = precision := by
    unfold firstNonZero
    rw [if_pos (by omega)]
  rw [hm] at hmem
  have hdz : ∀ i, k ≤ i → digit n i = 0 := fun i hi =>
    digit_zero_of_lt n i (lt_of_lt_of_le hlt (Nat.pow_le_pow_right (by norm_num) hi))
  have c0 : ∀ i, ¬ ((0 : Nat) ≠ 0 ∧ i = precision + 1) := fun i c => c.1 rfl
  refine ⟨?_, ?_, ?_, ?_⟩
  · intro i hi
    have c2 : i ≤ precision := by omega
    have c3 : ¬ (precision ≠ 0 ∧ precision = i) := by omega
    rw [hmem i, if_neg (c0 i), if_pos c2]
    unfold glyphIndex
    rw [if_neg c3]
  · intro i h1 h2
    have c2 : i ≤ precision := by omega
    have c3 : ¬ (precision ≠ 0 ∧ precision = i) := by omega
    rw [hmem i, if_neg (c0 i), if_pos c2, hdz i h1]
    unfold glyphIndex
    rw [if_neg c3]
  · have c3 : precision ≠ 0 ∧ precision = precision := ⟨by omega, rfl⟩
    rw [hmem precision, if_neg (c0 precision), if_pos (le_refl _), hdz precision hp.1]
    unfold glyphIndex
    rw [if_pos c3]
  · intro i h1 h2
    have c2 : ¬ i ≤ precision := by omega
    have c3 : i < 8 := by omega
    rw [hmem i, if_neg (c0 i), if_neg c2, if_pos c3]

theorem intToBCD_point_above_witness :
    (5 < 2 ^ 16 ∧ HasDigits 5 1 ∧ (1 ≤ 1 ∧ 1 ≤ 7)) ∧
    ((intToBCD Buf.fresh 0 1 5).mem 0 = 0x6D ∧ (intToBCD Buf.fresh 0 1 5).mem 1 = 0xBF ∧
      (intToBCD Buf.fresh 0 1 5).mem 2 = 0x00) ∧
    (intToBCD Buf.fresh 0 1 5).contents = [0x6D, 0xBF, 0, 0, 0, 0, 0, 0] ∧
    (intToBCD Buf.fresh 0 3 5).contents = [0x6D, 0x3F, 0x3F, 0xBF, 0, 0, 0, 0] :=
  have h := intToBCD_point_above Buf.fresh 1 5 1 (by decide) (by decide) (by decide)
  ⟨⟨by decide, by decide, by decide⟩,
    ⟨h.1 0 (by decide), h.2.2.1, h.2.2.2 2 (by decide) (by decide)⟩,
    by decide, by decide⟩

/-- Claim C6 as stated fails: `n = 5` has one digit, so digits plus one is 2,
yet with the sign flag set and `precision = 7` the stores go to offsets 0 to 7
and then to offset 8, past the 8-element array. -/
theorem intToBCD_sign_index_escapes :
    HasDigits 5 1 ∧ 1 + 1 ≤ 8 ∧
    (intToBCD Buf.fresh 1 7 5).writes = [0, 1, 2, 3, 4, 5, 6, 7, 8] ∧
    ¬ (∀ i ∈ (intToBCD Buf.fresh 1 7 5).writes, i ≤ 7) := by
  decide

/-- Claim C6, amended: if `n` has `k` decimal digits with `k + 1 ≤ 8`, and the
sign flag is zero or `precision` is not 7, then every offset that `intToBCD`
stores to, the minus-sign offset `firstNonZeroDigit + 1` included, is at
most 7. -/
theorem intToBCD_writes_in_range (charArray : Buf) (negative precision n k : Nat)
    (hk : HasDigits n k) (hfit : k + 1 ≤ 8) (hp : negative = 0 ∨ precision ≠ 7) :
    ∃ w, (intToBCD charArray negative precision n).writes = charArray.writes ++ w ∧
      ∀ i ∈ w, i ≤ 7 := by
  obtain ⟨_, hw⟩ := intToBCD_spec charArray negative precision n k hk (by omega)
  refine ⟨_, hw, ?_⟩
  have hm7 : firstNonZero precision k ≤ 7 := by
    unfold firstNonZero
    split <;> omega
  intro i hi
  rw [List.mem_append, List.mem_append, List.mem_reverse, List.mem_range'_1,
    List.mem_range'_1] at hi
  rcases hi with (h | h) | h
  · omega
  · omega
  · by_cases hneg : negative ≠ 0
    · rw [if_pos hneg, List.mem_singleton] at h
      have hp7 : precision ≠ 7 := by
        rcases hp with h0 | h7
        · exact absurd h0 hneg
        · exact h7
      have hm6 : firstNonZero precision k ≤ 6 := by
        unfold firstNonZero
        split <;> omega
      omega
    · rw [if_neg hneg] at h
      exact absurd h (List.not_mem_nil _)

theorem intToBCD_writes_in_range_witness :
    (HasDigits 205 3 ∧ 3 + 1 ≤ 8 ∧ (1 = 0 ∨ 1 ≠ 7)) ∧
    ∃ w, (intToBCD Buf.fresh 1 1 205).writes = Buf.fresh.writes ++ w ∧ ∀ i ∈ w, i ≤ 7 :=
  ⟨⟨by decide, by decide, by decide⟩,
    intToBCD_writes_in_range Buf.fresh 1 1 205 3 (by decide) (by decide) (by decide)⟩

/-! ## The polling loop: the claim -/

/-- Claim C10 fails on the code: when one iteration reads `T = -1` (bytes
`0xFF`, `0xFF`) and the next reads `T = 16` (bytes `0x10`, `0x00`), the Celsius
call of the second iteration still receives a non-zero sign flag, with the
magnitude 10 of `+1.0`. -/
theorem main_sign_flag_sticks :
    readingT 0xFF 0xFF = -1 ∧ readingT 0x10 0x00 = 16 ∧
    mainCelsiusCalls [(0xFF, 0xFF), (0x10, 0x00)] =
      [{ negative := 1, precision := 1, n := 1 }, { negative := 1, precision := 1, n := 10 }] := by
  have h1 : readingT 0xFF 0xFF = -1 := by decide
  have h2 : readingT 0x10 0x00 = 16 := by decide
  refine ⟨h1, h2, ?_⟩
  simp only [mainCelsiusCalls, celsiusLoop, celsiusIteration, h1, h2]
  norm_num [u8, u16]
  decide

end OneWire
